import Mathlib

/-!
Shallow embedding of the MSRIT results scraper (`src/scrapexam.py`) and
verification of its record-merging, stopping-rule, retry-escalation and
extraction properties.

Conventions of the embedding:
* Python dictionaries for student records become the `StudentRecord`
  structure; the per-student semester list keeps insertion order.
* `None` becomes `Option.none`; floating-point grade averages are modelled
  as `Option Rat` (they are only ever compared against `None` by the code).
* The browser session is external to the program; page observations are
  modelled as explicit inputs (indicator streams, card outcome lists).
-/

namespace Scrapexam

/-- Configuration constant `MAX_CONSEC_OOPS` (line 41): stop each track after
this many consecutive OOPS results. -/
def MAX_CONSEC_OOPS : Nat := 5

/-- Configuration constant `RETRY_ON_TIMEOUT` (line 42): number of automatic
retries of an ambiguous/timeout submission before prompting the user. -/
def RETRY_ON_TIMEOUT : Nat := 2

/-- Configuration constant `ROLL_START` (line 36). -/
def ROLL_START : Nat := 1

/-- Configuration constant `DIP_START` (line 39). -/
def DIP_START : Nat := 401

/-- One course row as built by `extract_courses_from_visible_table`
(lines 244-249): `{Course_Code, Course_Name, Grade, Timestamp}`. -/
structure Course where
  code : String
  name : String
  grade : String
  timestamp : String
deriving DecidableEq, Repr

/-- One semester dictionary as produced by
`scrape_current_usn_view_structured` (lines 313-317):
`{"Semester": int|None, "SGPA": float|None, "Courses": [...]}`. -/
structure Semester where
  number : Option Nat
  sgpa : Option Rat
  courses : List Course
deriving DecidableEq, Repr

/-- A student object as created by `ensure_student` (lines 446-451):
`{"USN", "Name", "CGPA", "Semesters"}`. -/
structure StudentRecord where
  usn : String
  name : String
  cgpa : Option Rat
  semesters : List Semester
deriving DecidableEq, Repr

/-- Index of the last `true` in a list of booleans.  This is the lookup
semantics of a Python dict comprehension `{key(s): i for i, s in
enumerate(xs)}`: a later entry with the same key overwrites an earlier
one, so a lookup returns the index of the last matching element. -/
def lastTrue : List Bool → Option Nat
  | [] => none
  | b :: rest =>
    match lastTrue rest with
    | some j => some (j + 1)
    | none => if b then some 0 else none

/-- Lookup in the dict over a list of semester keys (`Option Nat`, where
`none` is the unknown semester number, a perfectly valid dict key). -/
def numIndex (ns : List (Option Nat)) (k : Option Nat) : Option Nat :=
  lastTrue (ns.map (fun n => n == k))

/-- `idx_by_sem = {s.get("Semester"): i for i, s in enumerate(...)}`
(line 464) followed by a lookup of key `k`: the index of the last
semester whose `number` equals `k`, if any. -/
def semIndex (sems : List Semester) (k : Option Nat) : Option Nat :=
  numIndex (sems.map (·.number)) k

/-- Course identity used for deduplication (lines 471-474):
the `(Course_Code, Grade, Course_Name)` triple. -/
def courseKey (c : Course) : String × String × String :=
  (c.code, c.grade, c.name)

/-- Merging one incoming fragment into an existing semester with the same
key (lines 468-475): fill `SGPA` only if currently unknown, and append each
incoming course whose identity triple is not already present.  The
`existing` set of triples is computed once, before any appends. -/
def mergeSem (dest sem : Semester) : Semester :=
  { number := dest.number
    sgpa := if dest.sgpa = none ∧ sem.sgpa ≠ none then sem.sgpa else dest.sgpa
    courses := dest.courses ++
      sem.courses.filter (fun c => !decide (courseKey c ∈ dest.courses.map courseKey)) }

/-- One iteration of the `for sem in new_semesters` loop of
`merge_semesters` (lines 465-477), with `idx` the dict built at entry
(it is NOT updated when a new semester is appended). -/
def mergeFragStep (idx : Option Nat → Option Nat) (acc : List Semester)
    (sem : Semester) : List Semester :=
  match idx sem.number with
  | some i =>
    match acc[i]? with
    | some dest => acc.set i (mergeSem dest sem)
    | none => acc
  | none => acc ++ [sem]

/-- The full loop of `merge_semesters`: the index dict is frozen over
`base` (the semester list at entry) while the accumulator grows. -/
def mergeFold (base acc : List Semester) (newSems : List Semester) : List Semester :=
  newSems.foldl (mergeFragStep (semIndex base)) acc

/-- `merge_semesters(student_obj, new_semesters)` (lines 460-477). -/
def mergeSemesters (r : StudentRecord) (newSems : List Semester) : StudentRecord :=
  { r with semesters := mergeFold r.semesters r.semesters newSems }

/-- `ensure_student(record_map, usn, name, cgpa)` (lines 440-457), keyed on
whether the USN is already present in the record map: on first sight a
fresh object is created (`name or ""`, `cgpa if cgpa is not None else
None`); afterwards `Name` is backfilled only when the incoming name is
truthy and the stored one is empty or the placeholder `"Name Not Found"`,
and `CGPA` is overwritten by any non-`None` incoming value. -/
def ensureStudent (existing : Option StudentRecord) (usn : String)
    (name : Option String) (cgpa : Option Rat) : StudentRecord :=
  match existing with
  | none =>
    { usn := usn
      name := name.getD ""
      cgpa := cgpa
      semesters := [] }
  | some r =>
    { r with
      name :=
        match name with
        | some n => if n ≠ "" ∧ (r.name = "" ∨ r.name = "Name Not Found") then n else r.name
        | none => r.name
      cgpa :=
        match cgpa with
        | some c => some c
        | none => r.cgpa }

/-- The merge of one scraped result into the aggregate, as performed at the
call sites (lines 563-565, 602-604): `ensure_student` followed by
`merge_semesters`. -/
def mergeStudent (existing : Option StudentRecord) (usn : String)
    (name : Option String) (cgpa : Option Rat) (frags : List Semester) : StudentRecord :=
  mergeSemesters (ensureStudent existing usn name cgpa) frags

/-! ### Fragment extractor (`scrape_current_usn_view_structured`, lines 257-352) -/

/-- What the extractor observes for one semester card once it has navigated
into it: the parsed header number, caption SGPA, any CGPA on the page, the
parsed course rows, and whether the back-navigation to the cards view
succeeds afterwards (lines 305-327). -/
structure CardData where
  semNum : Option Nat
  sgpa : Option Rat
  cgpa : Option Rat
  courses : List Course
  backOk : Bool
deriving DecidableEq, Repr

/-- Outcome of attempting one result card (lines 279-327):
* `skip`: no view control was found, or clicking it failed — the unit is
  passed over without navigation (lines 290-296);
* `absent`: the navigation produced the OOPS signal — the session is
  recovered and the loop continues (lines 300-302);
* `ok d`: the unit loaded and was extracted as `d`. -/
inductive CardOutcome
  | skip
  | absent
  | ok (d : CardData)
deriving DecidableEq, Repr

/-- The cards loop (lines 273-327): walks the result units in order and
returns the collected semester fragments together with the last CGPA value
observed.  A fragment is emitted only when at least one course row was
parsed (lines 311-317).  A `skip` unit causes no navigation, so the
per-iteration refetch (line 274) still shows the cards view and iteration
proceeds.  An `absent` unit is recovered with
`go_back_to_usn_entry_keep_session` (lines 300-302), which lands the
session on the USN entry page; the next refetch finds no cards there (the
classifier of lines 139-144 relies on cards appearing only on result
pages), so `idx >= len(cards)` (lines 275-276) breaks the loop and the
remaining units are never processed — only what was already collected is
returned.  A failed back-navigation likewise ends the loop after the
current unit (lines 319-327). -/
def cardsLoop : List CardOutcome → List Semester × Option Rat
  | [] => ([], none)
  | .skip :: rest => cardsLoop rest
  | .absent :: _ => ([], none)
  | .ok d :: rest =>
    let frag : List Semester :=
      if d.courses = [] then [] else [⟨d.semNum, d.sgpa, d.courses⟩]
    if d.backOk then
      let p := cardsLoop rest
      (frag ++ p.1, match p.2 with | some c => some c | none => d.cgpa)
    else
      (frag, d.cgpa)

/-- The page state the extractor is pointed at: the OOPS flag (line 263),
the extracted student name (line 266, always a string, possibly the
placeholder), the semester cards if any (line 271), and otherwise the
directly rendered table data when its indicator is present (lines 334-335). -/
structure PageState where
  oops : Bool
  name : String
  cards : List CardOutcome
  direct : Option CardData
deriving DecidableEq, Repr

/-- Result tuple of `scrape_current_usn_view_structured`:
`(found_any, name, cgpa, semesters)`. -/
structure ScrapeResult where
  found : Bool
  name : Option String
  cgpa : Option Rat
  semesters : List Semester
deriving DecidableEq, Repr

/-- `scrape_current_usn_view_structured(driver, usn)` (lines 257-352). -/
def scrapeView (p : PageState) : ScrapeResult :=
  if p.oops then ⟨false, none, none, []⟩
  else if p.cards ≠ [] then
    let res := cardsLoop p.cards
    ⟨decide (res.1 ≠ []), some p.name, res.2, res.1⟩
  else
    match p.direct with
    | some d =>
      let sems : List Semester :=
        if d.courses = [] then [] else [⟨d.semNum, d.sgpa, d.courses⟩]
      ⟨decide (sems ≠ []), some p.name, d.cgpa, sems⟩
    | none => ⟨false, some p.name, none, []⟩

/-! ### Submission state machine (`submit_and_collect_usn`, lines 356-436) -/

/-- Indicator returned by `wait_for_either` (lines 125-146). -/
inductive Ind
  | oops
  | cards
  | table
  | timeout
deriving DecidableEq, Repr

/-- How a submission ends: the explicit not-found result `(False, None,
None, [])`, or a hand-off to the extractor on a `cards`/`table` signal. -/
inductive SubmitRes
  | notFound
  | scraped
deriving DecidableEq, Repr

/-- The retry loop of `submit_and_collect_usn` (lines 391-433), driven by
the list of indicators observed at attempts `0..RETRY_ON_TIMEOUT` and the
indicator `postHuman` observed by the 30-second wait after the one human
prompt.  Returns `(result, automatic resubmissions performed, human
prompts issued)`.  On a non-final `timeout` the USN is re-filled and
re-submitted (lines 401-417); on the final `timeout` the user is prompted
once and a still-ambiguous outcome is reported as not found
(lines 418-433). -/
def submitLoop (postHuman : Ind) : List Ind → SubmitRes × Nat × Nat
  | [] => (.notFound, 0, 0)
  | [i] =>
    match i with
    | .oops => (.notFound, 0, 0)
    | .cards => (.scraped, 0, 0)
    | .table => (.scraped, 0, 0)
    | .timeout =>
      match postHuman with
      | .cards => (.scraped, 0, 1)
      | .table => (.scraped, 0, 1)
      | .oops => (.notFound, 0, 1)
      | .timeout => (.notFound, 0, 1)
  | i :: j :: rest =>
    match i with
    | .oops => (.notFound, 0, 0)
    | .cards => (.scraped, 0, 0)
    | .table => (.scraped, 0, 0)
    | .timeout =>
      let p := submitLoop postHuman (j :: rest)
      (p.1, p.2.1 + 1, p.2.2)

/-- `submit_and_collect_usn` for retry bound `rb` (`RETRY_ON_TIMEOUT` in
the source), with `inds n` the indicator the page would show at the `n`-th
classification: attempts `0..rb` inside the loop, and index `rb+1` for the
long wait after the human prompt. -/
def submitAndCollect (rb : Nat) (inds : Nat → Ind) : SubmitRes × Nat × Nat :=
  submitLoop (inds (rb + 1)) ((List.range (rb + 1)).map inds)

/-! ### Enumeration planner (`main`, lines 535-567 and 579-606) -/

/-- Per-identifier outcome as seen by the group loop: a scraped result
(`found` true), an OOPS/no-data result, or an exception raised while
processing the identifier (lines 543-552). -/
inductive GOutcome
  | present
  | absent
  | error
deriving DecidableEq, Repr

/-- Evolution of the `consec_oops` counter for one outcome: reset on a
found result (line 563), incremented on a not-found one (line 555), and
untouched when an exception was caught (lines 545-552). -/
def consecStep (c : Nat) : GOutcome → Nat
  | .present => 0
  | .absent => c + 1
  | .error => c

/-- The counter after a list of outcomes. -/
def consecFold (c : Nat) (l : List GOutcome) : Nat :=
  l.foldl consecStep c

/-- The `while True` loop of one `(year, branch)` track (lines 540-567):
`th` is `MAX_CONSEC_OOPS`, `c` the current consecutive-OOPS counter,
`start` the next roll number, and the list the outcomes the successive
identifiers would produce.  Returns the attempted roll numbers and, if the
loop ran out of supplied outcomes rather than halting, the final counter. -/
def groupRun (th : Nat) : Nat → Nat → List GOutcome → List Nat × Option Nat
  | c, _, [] => ([], some c)
  | c, start, o :: rest =>
    match o with
    | .present =>
      let p := groupRun th 0 (start + 1) rest
      (start :: p.1, p.2)
    | .error =>
      let p := groupRun th c (start + 1) rest
      (start :: p.1, p.2)
    | .absent =>
      if th ≤ c + 1 then ([start], none)
      else
        let p := groupRun th (c + 1) (start + 1) rest
        (start :: p.1, p.2)

/-! ### Concrete fixtures used in counterexamples and witnesses -/

/-- A course row, as parsed from a result table. -/
def cAlgo : Course := ⟨"CS301", "Algo", "A", "10:00:00"⟩

/-- A second course row with a different identity triple. -/
def cOs : Course := ⟨"CS302", "OS", "B", "10:01:00"⟩

/-- The same identity triple as `cAlgo` but observed at a later time. -/
def cAlgoLater : Course := ⟨"CS301", "Algo", "A", "11:00:00"⟩

/-- A freshly created student record with no semesters. -/
def emptyRec : StudentRecord := ⟨"1MS21AD001", "", none, []⟩

/-- A student record already holding one unknown-number semester. -/
def unknownRec : StudentRecord := ⟨"1MS21AD001", "", none, [⟨none, none, [cAlgo]⟩]⟩

/-- The outcome sequence of the stopping-rule scenario in the spec:
sequence numbers 1..7 produce Present, five Absents, then Present. -/
def scenarioOutcomes : List GOutcome :=
  [.present, .absent, .absent, .absent, .absent, .absent, .present]

/-- A result unit that loads, parses one course, and navigates back fine. -/
def cardUnit1 : CardData := ⟨some 1, none, none, [cAlgo], true⟩

/-- A second well-behaved result unit with a different course. -/
def cardUnit3 : CardData := ⟨some 3, none, none, [cOs], true⟩

/-! ### Generic list helpers -/

theorem list_set_same {α : Type _} :
    ∀ (l : List α) (i : Nat) (v : α), l[i]? = some v → l.set i v = l
  | [], _, _, h => by simp at h
  | a :: l, 0, v, h => by
    simp only [List.getElem?_cons_zero, Option.some.injEq] at h
    simp [List.set, h]
  | a :: l, i + 1, v, h => by
    simp only [List.getElem?_cons_succ] at h
    simp [List.set, list_set_same l i v h]

theorem foldl_fixed {α β : Type _} (step : α → β → α) :
    ∀ (f : List β) (acc : α), (∀ g ∈ f, step acc g = acc) → f.foldl step acc = acc
  | [], _, _ => rfl
  | g :: f, acc, h => by
    have h0 : step acc g = acc := h g (List.mem_cons_self g f)
    simp only [List.foldl_cons, h0]
    exact foldl_fixed step f acc (fun g' hg' => h g' (List.mem_cons_of_mem g hg'))

/-! ### Properties of the dict-lookup model -/

theorem lastTrue_lt : ∀ {bs : List Bool} {i : Nat}, lastTrue bs = some i → i < bs.length := by
  intro bs
  induction bs with
  | nil => intro i h; simp [lastTrue] at h
  | cons b rest ih =>
    intro i h
    simp only [lastTrue] at h
    cases hr : lastTrue rest with
    | some j =>
      rw [hr] at h
      cases h
      exact Nat.succ_lt_succ (ih hr)
    | none =>
      rw [hr] at h
      by_cases hb : b = true
      · subst hb; simp at h; cases h; exact Nat.succ_pos _
      · simp at hb; subst hb; simp at h

theorem lastTrue_get : ∀ {bs : List Bool} {i : Nat}, lastTrue bs = some i → bs[i]? = some true := by
  intro bs
  induction bs with
  | nil => intro i h; simp [lastTrue] at h
  | cons b rest ih =>
    intro i h
    simp only [lastTrue] at h
    cases hr : lastTrue rest with
    | some j =>
      rw [hr] at h
      cases h
      simpa using ih hr
    | none =>
      rw [hr] at h
      by_cases hb : b = true
      · subst hb; simp at h; cases h; simp
      · simp at hb; subst hb; simp at h

theorem lastTrue_eq_none : ∀ {bs : List Bool}, lastTrue bs = none ↔ ∀ b ∈ bs, b = false := by
  intro bs
  induction bs with
  | nil => simp [lastTrue]
  | cons b rest ih =>
    simp only [lastTrue]
    cases hr : lastTrue rest with
    | some j =>
      simp only []
      constructor
      · intro h; cases h
      · intro h
        have : ∀ x ∈ rest, x = false := fun x hx => h x (List.mem_cons_of_mem b hx)
        rw [← ih] at this
        rw [this] at hr
        cases hr
    | none =>
      have hrest : ∀ x ∈ rest, x = false := ih.mp hr
      by_cases hb : b = true
      · subst hb; simp
      · simp at hb; subst hb
        simp only [if_neg (by simp : ¬(false = true))]
        constructor
        · intro _ x hx
          rcases List.mem_cons.mp hx with h1 | h2
          · exact h1
          · exact hrest x h2
        · intro _; trivial

theorem lastTrue_append : ∀ (xs ys : List Bool),
    lastTrue (xs ++ ys) =
      match lastTrue ys with
      | some j => some (xs.length + j)
      | none => lastTrue xs := by
  intro xs ys
  induction xs with
  | nil =>
    cases h : lastTrue ys with
    | some j => simp [h]
    | none => simp [h, lastTrue]
  | cons x xs ih =>
    show lastTrue (x :: (xs ++ ys)) = _
    simp only [lastTrue, ih]
    cases h : lastTrue ys with
    | some j =>
      simp only [List.length_cons]
      congr 1
      omega
    | none =>
      simp only []

theorem numIndex_lt {ns : List (Option Nat)} {k : Option Nat} {i : Nat}
    (h : numIndex ns k = some i) : i < ns.length := by
  have := lastTrue_lt h
  simpa using this

theorem numIndex_get {ns : List (Option Nat)} {k : Option Nat} {i : Nat}
    (h : numIndex ns k = some i) : ns[i]? = some k := by
  have hg := lastTrue_get h
  rw [List.getElem?_map] at hg
  cases hn : ns[i]? with
  | none => rw [hn] at hg; simp at hg
  | some n =>
    rw [hn] at hg
    simp only [Option.map_some', Option.some.injEq] at hg
    have : n = k := by simpa using hg
    rw [this]

theorem numIndex_eq_none {ns : List (Option Nat)} {k : Option Nat} :
    numIndex ns k = none ↔ k ∉ ns := by
  unfold numIndex
  rw [lastTrue_eq_none]
  constructor
  · intro h hk
    have := h (k == k) (List.mem_map_of_mem (fun n => n == k) hk)
    simp at this
  · intro h b hb
    rcases List.mem_map.mp hb with ⟨n, hn, rfl⟩
    simp only [beq_eq_false_iff_ne, ne_eq]
    intro he
    exact h (he ▸ hn)

theorem numIndex_append (ns1 ns2 : List (Option Nat)) (k : Option Nat) :
    numIndex (ns1 ++ ns2) k =
      match numIndex ns2 k with
      | some j => some (ns1.length + j)
      | none => numIndex ns1 k := by
  unfold numIndex
  rw [List.map_append, lastTrue_append]
  simp

/-! ### Algebra of `mergeSem` -/

theorem mergeSem_number (d g : Semester) : (mergeSem d g).number = d.number := rfl

theorem mergeSem_self (g : Semester) : mergeSem g g = g := by
  unfold mergeSem
  have hf : g.courses.filter
      (fun c => !decide (courseKey c ∈ g.courses.map courseKey)) = [] := by
    rw [List.filter_eq_nil_iff]
    intro c hc
    simp [List.mem_map_of_mem courseKey hc]
  rw [hf]
  have hs : (if g.sgpa = none ∧ g.sgpa ≠ none then g.sgpa else g.sgpa) = g.sgpa := by
    split <;> rfl
  rw [hs]
  simp

theorem mergeSem_absorb (d g : Semester) : mergeSem (mergeSem d g) g = mergeSem d g := by
  unfold mergeSem
  simp only []
  have hcourses :
      g.courses.filter (fun c =>
        !decide (courseKey c ∈
          (d.courses ++ g.courses.filter
            (fun c => !decide (courseKey c ∈ d.courses.map courseKey))).map courseKey)) = [] := by
    rw [List.filter_eq_nil_iff]
    intro c hc
    simp only [Bool.not_eq_true', decide_eq_false_iff_not, not_not, List.map_append,
      List.mem_append]
    by_cases hd : courseKey c ∈ d.courses.map courseKey
    · exact Or.inl hd
    · refine Or.inr (List.mem_map_of_mem courseKey ?_)
      rw [List.mem_filter]
      exact ⟨hc, by simpa using hd⟩
  rw [hcourses, List.append_nil]
  have hsgpa :
      (if (if d.sgpa = none ∧ g.sgpa ≠ none then g.sgpa else d.sgpa) = none ∧ g.sgpa ≠ none
        then g.sgpa
        else if d.sgpa = none ∧ g.sgpa ≠ none then g.sgpa else d.sgpa) =
      if d.sgpa = none ∧ g.sgpa ≠ none then g.sgpa else d.sgpa := by
    by_cases hd : d.sgpa = none <;> by_cases hg : g.sgpa = none <;> simp [hd, hg]
  rw [hsgpa]

/-! ### Characterization of the `merge_semesters` fold -/

theorem step_map_number (base acc : List Semester) (g : Semester) :
    (mergeFragStep (semIndex base) acc g).map (·.number) =
      acc.map (·.number) ++
        (match semIndex base g.number with
         | some _ => []
         | none => [g.number]) := by
  cases h : semIndex base g.number with
  | none => simp [mergeFragStep, h]
  | some i =>
    cases hacc : acc[i]? with
    | none => simp [mergeFragStep, h, hacc]
    | some dest =>
      simp only [mergeFragStep, h, hacc, List.append_nil]
      rw [List.map_set]
      apply list_set_same
      rw [List.getElem?_map, hacc]
      rfl

theorem mergeFold_map_number (base : List Semester) :
    ∀ (f : List Semester) (acc : List Semester),
      (mergeFold base acc f).map (·.number) =
        acc.map (·.number) ++
          (f.filter (fun g => (semIndex base g.number).isNone)).map (·.number)
  | [], acc => by simp [mergeFold]
  | g :: f, acc => by
    show (mergeFold base (mergeFragStep (semIndex base) acc g) f).map (·.number) = _
    rw [mergeFold_map_number base f (mergeFragStep (semIndex base) acc g)]
    rw [step_map_number]
    cases h : semIndex base g.number with
    | some i =>
      rw [List.filter_cons_of_neg (by simp [h])]
      simp
    | none =>
      rw [List.filter_cons_of_pos (by simp [h])]
      simp

theorem mergeFold_length (base acc f : List Semester) :
    (mergeFold base acc f).length =
      acc.length + (f.filter (fun g => (semIndex base g.number).isNone)).length := by
  have h := congrArg List.length (mergeFold_map_number base f acc)
  simpa using h

theorem step_get_other {base : List Semester} {g : Semester} {i : Nat} {v : Semester}
    (hne : semIndex base g.number ≠ some i) {acc : List Semester} (hv : acc[i]? = some v) :
    (mergeFragStep (semIndex base) acc g)[i]? = some v := by
  cases h : semIndex base g.number with
  | none =>
    have hlt : i < acc.length := (List.getElem?_eq_some.mp hv).1
    simp only [mergeFragStep, h]
    rw [List.getElem?_append_left hlt]
    exact hv
  | some i' =>
    have hii : i' ≠ i := fun he => hne (he ▸ h)
    cases hacc : acc[i']? with
    | none => simp only [mergeFragStep, h, hacc]; exact hv
    | some dest =>
      simp only [mergeFragStep, h, hacc]
      rw [List.getElem?_set_ne hii]
      exact hv

theorem mergeFold_get_untouched {base : List Semester} {i : Nat} :
    ∀ (f : List Semester) (acc : List Semester) (v : Semester),
      (∀ g ∈ f, semIndex base g.number ≠ some i) → acc[i]? = some v →
      (mergeFold base acc f)[i]? = some v
  | [], acc, v, _, hv => hv
  | g :: f, acc, v, hne, hv => by
    show (mergeFold base (mergeFragStep (semIndex base) acc g) f)[i]? = some v
    exact mergeFold_get_untouched f _ v
      (fun g' hg' => hne g' (List.mem_cons_of_mem g hg'))
      (step_get_other (hne g (List.mem_cons_self g f)) hv)

theorem mergeFold_get_update {base : List Semester} {g : Semester} {i : Nat} :
    ∀ (f : List Semester) (acc : List Semester) (dest : Semester),
      f.Nodup → g ∈ f → semIndex base g.number = some i → acc[i]? = some dest →
      (∀ gg ∈ f, gg ≠ g → semIndex base gg.number ≠ some i) →
      (mergeFold base acc f)[i]? = some (mergeSem dest g)
  | [], _, _, _, hg, _, _, _ => absurd hg (List.not_mem_nil g)
  | a :: f, acc, dest, hnd, hg, hsi, hacc, huniq => by
    show (mergeFold base (mergeFragStep (semIndex base) acc a) f)[i]? = _
    by_cases hag : a = g
    · subst hag
      have hstep : (mergeFragStep (semIndex base) acc a)[i]? = some (mergeSem dest a) := by
        simp only [mergeFragStep, hsi, hacc]
        have hlt : i < acc.length := (List.getElem?_eq_some.mp hacc).1
        exact List.getElem?_set_eq_of_lt (mergeSem dest a) hlt
      have hnotin : a ∉ f := (List.nodup_cons.mp hnd).1
      exact mergeFold_get_untouched f _ _
        (fun g' hg' => huniq g' (List.mem_cons_of_mem a hg')
          (fun he => hnotin (he ▸ hg')))
        hstep
    · have hgf : g ∈ f := by
        rcases List.mem_cons.mp hg with h1 | h2
        · exact absurd h1.symm hag
        · exact h2
      have hstep : (mergeFragStep (semIndex base) acc a)[i]? = some dest :=
        step_get_other (huniq a (List.mem_cons_self a f) hag) hacc
      exact mergeFold_get_update f _ dest (List.nodup_cons.mp hnd).2 hgf hsi hstep
        (fun gg hgg => huniq gg (List.mem_cons_of_mem a hgg))

theorem numIndex_cons_self (kn : Option Nat) (ns : List (Option Nat)) (k : Option Nat)
    (hkn : kn = k) (hns : k ∉ ns) : numIndex (kn :: ns) k = some 0 := by
  have hnone : lastTrue (ns.map (fun n => n == k)) = none := by
    rw [lastTrue_eq_none]
    intro b hb
    rcases List.mem_map.mp hb with ⟨n, hn, rfl⟩
    simp only [beq_eq_false_iff_ne, ne_eq]
    intro he
    exact hns (he ▸ hn)
  show lastTrue ((kn :: ns).map (fun n => n == k)) = some 0
  rw [List.map_cons]
  simp [lastTrue, hnone, hkn]

/-- Where each fragment of `f` ends up after `merge_semesters`: provided the
fragments of `f` carry pairwise distinct semester keys, the merged list
locates every fragment key at an index whose entry already absorbs a
re-merge of that fragment. -/
theorem mergeFold_locate {f : List Semester} (hk : (f.map (·.number)).Nodup)
    (base : List Semester) {g : Semester} (hg : g ∈ f) :
    ∃ i d, semIndex (mergeFold base base f) g.number = some i ∧
      (mergeFold base base f)[i]? = some d ∧ mergeSem d g = d := by
  cases h : semIndex base g.number with
  | some i =>
    have hbn : (base.map (·.number))[i]? = some g.number := numIndex_get h
    have hbase : ∃ s, base[i]? = some s ∧ s.number = g.number := by
      rw [List.getElem?_map] at hbn
      cases hb : base[i]? with
      | none => rw [hb] at hbn; simp at hbn
      | some s =>
        rw [hb] at hbn
        exact ⟨s, rfl, by simpa using hbn⟩
    obtain ⟨s, hbi, hsn⟩ := hbase
    have huniq : ∀ gg ∈ f, gg ≠ g → semIndex base gg.number ≠ some i := by
      intro gg hgg hne hcon
      have hbn2 : (base.map (·.number))[i]? = some gg.number := numIndex_get hcon
      have heq : gg.number = g.number := by
        have := hbn2.symm.trans hbn
        simpa using this
      exact hne (List.inj_on_of_nodup_map hk hgg hg heq)
    have hupd := mergeFold_get_update f base s (List.Nodup.of_map _ hk) hg h hbi huniq
    have hidx : semIndex (mergeFold base base f) g.number = some i := by
      show numIndex ((mergeFold base base f).map (·.number)) g.number = some i
      rw [mergeFold_map_number, numIndex_append]
      have happ : numIndex
          ((f.filter (fun g => (semIndex base g.number).isNone)).map (·.number))
          g.number = none := by
        rw [numIndex_eq_none]
        intro hmem
        rcases List.mem_map.mp hmem with ⟨gg, hggf, hggn⟩
        have hfil := List.mem_filter.mp hggf
        have hiso : (semIndex base gg.number).isNone := by simpa using hfil.2
        rw [hggn, h] at hiso
        simp at hiso
      rw [happ]
      exact h
    exact ⟨i, mergeSem s g, hidx, hupd, mergeSem_absorb s g⟩
  | none =>
    obtain ⟨f1, f2, hf⟩ := List.append_of_mem hg
    subst hf
    have hfold : mergeFold base base (f1 ++ g :: f2) =
        mergeFold base (mergeFold base base f1 ++ [g]) f2 := by
      unfold mergeFold
      rw [List.foldl_append, List.foldl_cons]
      congr 1
      simp [mergeFragStep, h]
    have hlen1 : (mergeFold base base f1).length =
        base.length + (f1.filter (fun g => (semIndex base g.number).isNone)).length :=
      mergeFold_length base base f1
    have huntouched : ∀ gg ∈ f2,
        semIndex base gg.number ≠ some (mergeFold base base f1).length := by
      intro gg hgg hcon
      have hlt := numIndex_lt hcon
      simp only [List.length_map] at hlt
      omega
    have hget : (mergeFold base base (f1 ++ g :: f2))[(mergeFold base base f1).length]? =
        some g := by
      rw [hfold]
      exact mergeFold_get_untouched f2 _ g huntouched
        (List.getElem?_concat_length (mergeFold base base f1) g)
    have hgnotf2 : g.number ∉ f2.map (·.number) := by
      rw [List.map_append, List.map_cons] at hk
      have h2 := (List.nodup_append.mp hk).2.1
      exact (List.nodup_cons.mp h2).1
    have hnotbase : g.number ∉ base.map (·.number) := numIndex_eq_none.mp h
    have hidx : semIndex (mergeFold base base (f1 ++ g :: f2)) g.number =
        some (mergeFold base base f1).length := by
      show numIndex ((mergeFold base base (f1 ++ g :: f2)).map (·.number)) g.number = _
      rw [mergeFold_map_number, List.filter_append,
        List.filter_cons_of_pos (by simp [h]), List.map_append, List.map_cons,
        numIndex_append]
      have hinner : numIndex
          ((f1.filter (fun g => (semIndex base g.number).isNone)).map (·.number) ++
            g.number :: (f2.filter (fun g => (semIndex base g.number).isNone)).map (·.number))
          g.number =
          some (f1.filter (fun g => (semIndex base g.number).isNone)).length := by
        rw [numIndex_append]
        have hcons : numIndex
            (g.number :: (f2.filter (fun g => (semIndex base g.number).isNone)).map (·.number))
            g.number = some 0 := by
          apply numIndex_cons_self _ _ _ rfl
          intro hmem
          rcases List.mem_map.mp hmem with ⟨gg, hggf, hggn⟩
          exact hgnotf2 (hggn ▸ List.mem_map_of_mem (·.number) (List.mem_filter.mp hggf).1)
        rw [hcons]
        simp
      rw [hinner]
      simp only [List.length_map]
      congr 1
      omega
    exact ⟨(mergeFold base base f1).length, g, hidx, hget, mergeSem_self g⟩

/-- Re-merging a fragment set with pairwise distinct semester keys is a
no-op on the semester list. -/
theorem mergeFold_idem {f : List Semester} (hk : (f.map (·.number)).Nodup)
    (base : List Semester) :
    mergeFold (mergeFold base base f) (mergeFold base base f) f =
      mergeFold base base f := by
  apply foldl_fixed
  intro g hg
  obtain ⟨i, d, h1, h2, h3⟩ := mergeFold_locate hk base hg
  simp only [mergeFragStep, h1, h2, h3]
  exact list_set_same _ i d h2

/-- A second `ensure_student` call with the same incoming name/cgpa is a
no-op on a record whose scalar fields already reflect a first call. -/
theorem ensureStudent_stable (s : Option StudentRecord) (usn usn2 : String)
    (nm : Option String) (cg : Option Rat) (r2 : StudentRecord)
    (hn : r2.name = (ensureStudent s usn nm cg).name)
    (hc : r2.cgpa = (ensureStudent s usn nm cg).cgpa) :
    ensureStudent (some r2) usn2 nm cg = r2 := by
  have hcg : ∀ c, cg = some c → r2.cgpa = some c := by
    intro c hcgc
    subst hcgc
    cases s with
    | none => exact hc
    | some r => exact hc
  have hnm : ∀ n, nm = some n →
      (if n ≠ "" ∧ (r2.name = "" ∨ r2.name = "Name Not Found") then n
       else r2.name) = r2.name := by
    intro n hnmn
    subst hnmn
    cases s with
    | none =>
      have h2 : r2.name = n := hn
      rw [h2]
      split <;> rfl
    | some r =>
      have h2 : r2.name =
          if n ≠ "" ∧ (r.name = "" ∨ r.name = "Name Not Found") then n else r.name := hn
      by_cases hcond : n ≠ "" ∧ (r.name = "" ∨ r.name = "Name Not Found")
      · rw [if_pos hcond] at h2
        rw [h2]
        split <;> rfl
      · rw [if_neg hcond] at h2
        rw [h2, if_neg hcond]
  clear hn hc
  cases nm with
  | none =>
    cases cg with
    | none => rfl
    | some c =>
      have hr : ensureStudent (some r2) usn2 none (some c) =
          { r2 with cgpa := some c } := rfl
      rw [hr, ← hcg c rfl]
  | some n =>
    cases cg with
    | none =>
      have hr : ensureStudent (some r2) usn2 (some n) none =
          { r2 with
            name :=
              if n ≠ "" ∧ (r2.name = "" ∨ r2.name = "Name Not Found") then n
              else r2.name } := rfl
      rw [hr, hnm n rfl]
    | some c =>
      have hr : ensureStudent (some r2) usn2 (some n) (some c) =
          { r2 with
            name :=
              if n ≠ "" ∧ (r2.name = "" ∨ r2.name = "Name Not Found") then n
              else r2.name
            cgpa := some c } := rfl
      rw [hr, hnm n rfl, ← hcg c rfl]

/-- Claim C1 (amended): merging the same fragment set twice changes nothing
beyond the first merge, provided the set carries at most one fragment per
semester key (one per known number, and at most one with unknown number).
`mergeStudent` is `ensure_student` followed by `merge_semesters`. -/
theorem merge_idem_of_nodup_keys (s : Option StudentRecord) (usn : String)
    (nm : Option String) (cg : Option Rat) (f : List Semester)
    (hk : (f.map (·.number)).Nodup) :
    mergeStudent (some (mergeStudent s usn nm cg f)) usn nm cg f =
      mergeStudent s usn nm cg f := by
  have hens : ensureStudent (some (mergeStudent s usn nm cg f)) usn nm cg =
      mergeStudent s usn nm cg f :=
    ensureStudent_stable s usn usn nm cg _ rfl rfl
  show mergeSemesters (ensureStudent (some (mergeStudent s usn nm cg f)) usn nm cg) f = _
  rw [hens]
  show { mergeStudent s usn nm cg f with
      semesters := mergeFold (mergeStudent s usn nm cg f).semesters
        (mergeStudent s usn nm cg f).semesters f } = _
  have hsem : mergeFold (mergeStudent s usn nm cg f).semesters
      (mergeStudent s usn nm cg f).semesters f =
      (mergeStudent s usn nm cg f).semesters :=
    mergeFold_idem hk (ensureStudent s usn nm cg).semesters
  rw [hsem]

/-- Counterexample to claim C1 as stated: a fragment set holding two
fragments for the same semester number 3 is not idempotent under merge —
the index dict frozen at entry appends both, and the second merge then
folds course rows into the later duplicate. -/
theorem merge_not_idem_dup_keys :
    mergeStudent
        (some (mergeStudent (some emptyRec) "1MS21AD001" none none
          [⟨some 3, none, [cAlgo]⟩, ⟨some 3, none, [cOs]⟩]))
        "1MS21AD001" none none
        [⟨some 3, none, [cAlgo]⟩, ⟨some 3, none, [cOs]⟩] ≠
      mergeStudent (some emptyRec) "1MS21AD001" none none
        [⟨some 3, none, [cAlgo]⟩, ⟨some 3, none, [cOs]⟩] := by
  decide

/-- Witness for claim C1: the amended idempotence applied to a concrete
two-fragment set with distinct semester numbers. -/
theorem merge_idem_of_nodup_keys_wit :
    (([⟨some 3, none, [cAlgo]⟩, ⟨some 4, none, [cOs]⟩] : List Semester).map (·.number)).Nodup ∧
    mergeStudent
        (some (mergeStudent (some emptyRec) "1MS21AD001" (some "A Student") none
          [⟨some 3, none, [cAlgo]⟩, ⟨some 4, none, [cOs]⟩]))
        "1MS21AD001" (some "A Student") none
        [⟨some 3, none, [cAlgo]⟩, ⟨some 4, none, [cOs]⟩] =
      mergeStudent (some emptyRec) "1MS21AD001" (some "A Student") none
        [⟨some 3, none, [cAlgo]⟩, ⟨some 4, none, [cOs]⟩] :=
  ⟨by decide,
    merge_idem_of_nodup_keys (some emptyRec) "1MS21AD001" (some "A Student") none
      [⟨some 3, none, [cAlgo]⟩, ⟨some 4, none, [cOs]⟩] (by decide)⟩

/-- Claim C2 (amended): the unknown semester number behaves as an ordinary
dict key (`None` is a valid key of `idx_by_sem`): a fragment with unknown
number is merged into the most recent existing unknown-number semester when
one exists — so re-merging coalesces rather than duplicates — and is
appended as a new semester only when no unknown-number semester exists. -/
theorem unknown_number_acts_as_key (r : StudentRecord) (g : Semester)
    (hg : g.number = none) :
    ((∃ s ∈ r.semesters, s.number = none) →
      (mergeSemesters r [g]).semesters.length = r.semesters.length) ∧
    ((∀ s ∈ r.semesters, s.number ≠ none) →
      (mergeSemesters r [g]).semesters = r.semesters ++ [g]) := by
  constructor
  · rintro ⟨s, hs, hsn⟩
    have hne : semIndex r.semesters g.number ≠ none := by
      rw [hg]
      intro hnone
      exact (numIndex_eq_none.mp hnone) (hsn ▸ List.mem_map_of_mem (·.number) hs)
    cases hidx : semIndex r.semesters g.number with
    | none => exact absurd hidx hne
    | some i =>
      have hlt : i < r.semesters.length := by
        have := numIndex_lt hidx
        simpa using this
      have hd : r.semesters[i]? = some r.semesters[i] := List.getElem?_eq_getElem hlt
      show (mergeFold r.semesters r.semesters [g]).length = r.semesters.length
      simp only [mergeFold, List.foldl_cons, List.foldl_nil, mergeFragStep, hidx, hd]
      exact List.length_set r.semesters i _
  · intro hall
    have hnone : semIndex r.semesters g.number = none := by
      rw [hg]
      apply numIndex_eq_none.mpr
      intro hmem
      rcases List.mem_map.mp hmem with ⟨s, hs, hsn⟩
      exact hall s hs hsn
    show mergeFold r.semesters r.semesters [g] = r.semesters ++ [g]
    simp [mergeFold, mergeFragStep, hnone]

/-- Counterexample to claim C2 as stated: merging a second unknown-number
fragment into a record already holding an unknown-number semester yields
one coalesced unknown-number semester, not two separate ones. -/
theorem unknown_number_coalesce_cex :
    (mergeSemesters unknownRec [⟨none, none, [cOs]⟩]).semesters =
      [⟨none, none, [cAlgo, cOs]⟩] ∧
    (mergeSemesters unknownRec [⟨none, none, [cOs]⟩]).semesters.length ≠ 2 := by
  decide

/-- Witness for claim C2: the amended behavior at a concrete record with
one unknown-number semester. -/
theorem unknown_number_acts_as_key_wit :
    (⟨none, none, [cOs]⟩ : Semester).number = none ∧
    (mergeSemesters unknownRec [⟨none, none, [cOs]⟩]).semesters.length =
      unknownRec.semesters.length :=
  ⟨rfl, (unknown_number_acts_as_key unknownRec ⟨none, none, [cOs]⟩ rfl).1
    ⟨⟨none, none, [cAlgo]⟩, by decide, rfl⟩⟩

/-- Claim C7 (amended): no two semesters with the same known number coexist
after a merge, provided the incoming fragment list itself carries at most
one fragment per known semester number; a single call whose list repeats a
known number appends both copies (the index dict is frozen at entry). -/
theorem known_number_invariant_of_nodup (r : StudentRecord) (f : List Semester)
    (hr : (r.semesters.filterMap (·.number)).Nodup)
    (hf : (f.filterMap (·.number)).Nodup) :
    ((mergeSemesters r f).semesters.filterMap (·.number)).Nodup := by
  have hfm : ∀ (l : List Semester),
      l.filterMap (·.number) = (l.map (·.number)).filterMap id := by
    intro l
    rw [List.filterMap_map]
    rfl
  have hmap : (mergeSemesters r f).semesters.map (·.number) =
      r.semesters.map (·.number) ++
        (f.filter (fun g => (semIndex r.semesters g.number).isNone)).map (·.number) :=
    mergeFold_map_number r.semesters f r.semesters
  rw [hfm, hmap, List.filterMap_append, ← hfm,
    ← hfm (f.filter (fun g => (semIndex r.semesters g.number).isNone)),
    List.nodup_append]
  refine ⟨hr, ?_, ?_⟩
  · apply List.Nodup.sublist _ hf
    exact List.Sublist.filterMap (·.number) (List.filter_sublist f)
  · intro x hx1 hx2
    rcases List.mem_filterMap.mp hx2 with ⟨gg, hggmem, hggn⟩
    have hfil := List.mem_filter.mp hggmem
    have hnone : semIndex r.semesters gg.number = none := by
      have : (semIndex r.semesters gg.number).isNone := by simpa using hfil.2
      exact Option.isNone_iff_eq_none.mp this
    rw [hggn] at hnone
    rcases List.mem_filterMap.mp hx1 with ⟨s, hs, hsn⟩
    exact (numIndex_eq_none.mp hnone) (hsn ▸ List.mem_map_of_mem (·.number) hs)

/-- Counterexample to claim C7 as stated: one `merge_semesters` call whose
incoming list holds two fragments for known semester number 3 leaves two
semesters numbered 3 in the record. -/
theorem known_number_dup_cex :
    (mergeSemesters emptyRec [⟨some 3, none, [cAlgo]⟩, ⟨some 3, none, [cOs]⟩]).semesters.map
        (·.number) = [some 3, some 3] ∧
    ¬ ((mergeSemesters emptyRec
        [⟨some 3, none, [cAlgo]⟩, ⟨some 3, none, [cOs]⟩]).semesters.filterMap
          (·.number)).Nodup := by
  decide

/-- Witness for claim C7: the amended invariant applied to a fragment list
with distinct known numbers. -/
theorem known_number_invariant_wit :
    (emptyRec.semesters.filterMap (·.number)).Nodup ∧
    (([⟨some 3, none, [cAlgo]⟩, ⟨some 4, none, [cOs]⟩] : List Semester).filterMap
      (·.number)).Nodup ∧
    ((mergeSemesters emptyRec
      [⟨some 3, none, [cAlgo]⟩, ⟨some 4, none, [cOs]⟩]).semesters.filterMap
        (·.number)).Nodup :=
  ⟨by decide, by decide,
    known_number_invariant_of_nodup emptyRec
      [⟨some 3, none, [cAlgo]⟩, ⟨some 4, none, [cOs]⟩] (by decide) (by decide)⟩

theorem list_set_concat_length {α : Type _} :
    ∀ (l : List α) (a b : α), (l ++ [a]).set l.length b = l ++ [b]
  | [], _, _ => rfl
  | x :: l, a, b => by
    show x :: (l ++ [a]).set l.length b = x :: (l ++ [b])
    rw [list_set_concat_length l a b]

/-- Claim C6 (confirmed): course identity is the `(code, grade, name)`
triple; merging a fragment `B` for a semester number already present (here
through an earlier merge of `A`) dedups by triple — the semester ends with
no duplicate triples and exactly one course per triple in the union of the
triple sets of the two fragments — for fragments whose own course lists carry
distinct triples. -/
theorem course_triple_dedup (r : StudentRecord) (A B : Semester) (n : Nat)
    (hA : A.number = some n) (hB : B.number = some n)
    (hr : semIndex r.semesters (some n) = none)
    (hAn : (A.courses.map courseKey).Nodup)
    (hBn : (B.courses.map courseKey).Nodup) :
    (mergeSemesters (mergeSemesters r [A]) [B]).semesters =
        r.semesters ++ [mergeSem A B] ∧
    ((mergeSem A B).courses.map courseKey).Nodup ∧
    (mergeSem A B).courses.length =
      ((A.courses.map courseKey).toFinset ∪ (B.courses.map courseKey).toFinset).card := by
  have hcourses : (mergeSem A B).courses =
      A.courses ++ B.courses.filter
        (fun c => !decide (courseKey c ∈ A.courses.map courseKey)) := rfl
  have hfilsub : List.Sublist
      ((B.courses.filter
        (fun c => !decide (courseKey c ∈ A.courses.map courseKey))).map courseKey)
      (B.courses.map courseKey) :=
    List.Sublist.map courseKey (List.filter_sublist B.courses)
  have hnodup : ((mergeSem A B).courses.map courseKey).Nodup := by
    rw [hcourses, List.map_append, List.nodup_append]
    refine ⟨hAn, List.Nodup.sublist hfilsub hBn, ?_⟩
    intro x hx1 hx2
    rcases List.mem_map.mp hx2 with ⟨c, hc, rfl⟩
    have := (List.mem_filter.mp hc).2
    simp only [Bool.not_eq_true', decide_eq_false_iff_not] at this
    exact this hx1
  refine ⟨?_, hnodup, ?_⟩
  · have h1 : (mergeSemesters r [A]).semesters = r.semesters ++ [A] := by
      show mergeFold r.semesters r.semesters [A] = r.semesters ++ [A]
      simp [mergeFold, mergeFragStep, hA, hr]
    have h2 : semIndex (r.semesters ++ [A]) B.number = some r.semesters.length := by
      rw [hB]
      show numIndex ((r.semesters ++ [A]).map (·.number)) (some n) = _
      rw [List.map_append, numIndex_append]
      have hone : numIndex ([A].map (·.number)) (some n) = some 0 := by
        rw [List.map_cons]
        exact numIndex_cons_self A.number (([] : List Semester).map (·.number)) (some n) hA
          (by simp)
      rw [hone]
      simp
    show mergeFold (mergeSemesters r [A]).semesters (mergeSemesters r [A]).semesters [B] = _
    rw [h1]
    simp only [mergeFold, List.foldl_cons, List.foldl_nil, mergeFragStep, h2,
      List.getElem?_concat_length]
    exact list_set_concat_length r.semesters A (mergeSem A B)
  · have hunion : ((mergeSem A B).courses.map courseKey).toFinset =
        (A.courses.map courseKey).toFinset ∪ (B.courses.map courseKey).toFinset := by
      ext x
      simp only [List.mem_toFinset, Finset.mem_union, hcourses, List.map_append,
        List.mem_append]
      constructor
      · rintro (h | h)
        · exact Or.inl h
        · rcases List.mem_map.mp h with ⟨c, hc, rfl⟩
          exact Or.inr (List.mem_map_of_mem courseKey (List.mem_filter.mp hc).1)
      · rintro (h | h)
        · exact Or.inl h
        · by_cases hxa : x ∈ A.courses.map courseKey
          · exact Or.inl hxa
          · rcases List.mem_map.mp h with ⟨c, hc, rfl⟩
            refine Or.inr (List.mem_map_of_mem courseKey (List.mem_filter.mpr ⟨hc, ?_⟩))
            simpa using hxa
    rw [← hunion, List.toFinset_card_of_nodup hnodup, List.length_map]

/-- Witness for claim C6: the scenario from the specification — fragments
`[(CS301, Algo, A)]` then `[(CS301, Algo, A), (CS302, OS, B)]` for semester
3 merge to a semester with exactly two courses (the repeated triple is
detected even at a different observation timestamp). -/
theorem course_triple_dedup_wit :
    (⟨some 3, none, [cAlgo]⟩ : Semester).number = some 3 ∧
    semIndex emptyRec.semesters (some 3) = none ∧
    ((mergeSemesters (mergeSemesters emptyRec [⟨some 3, none, [cAlgo]⟩])
        [⟨some 3, none, [cAlgoLater, cOs]⟩]).semesters =
      emptyRec.semesters ++
        [mergeSem ⟨some 3, none, [cAlgo]⟩ ⟨some 3, none, [cAlgoLater, cOs]⟩]) ∧
    (mergeSem ⟨some 3, none, [cAlgo]⟩ ⟨some 3, none, [cAlgoLater, cOs]⟩).courses.length = 2 :=
  ⟨rfl, by decide,
    (course_triple_dedup emptyRec ⟨some 3, none, [cAlgo]⟩ ⟨some 3, none, [cAlgoLater, cOs]⟩ 3
      rfl rfl (by decide) (by decide) (by decide)).1,
    by decide⟩

/-- Claim C5 (confirmed): monotone scalar fill in `ensure_student` on an
existing record: a non-empty name is never cleared and an empty/unknown
incoming value changes nothing; a valid name (non-empty and not the
placeholder) is never overwritten (first-valid-wins); cgpa is replaced by
any non-None incoming value (last-non-None-wins), left alone by a None one,
and a non-None cgpa is never cleared. -/
theorem scalar_fill_monotonic (r : StudentRecord) (usn : String)
    (nm : Option String) (cg : Option Rat) :
    ((r.name ≠ "" → (ensureStudent (some r) usn nm cg).name ≠ "") ∧
     (r.name ≠ "" → r.name ≠ "Name Not Found" →
        (ensureStudent (some r) usn nm cg).name = r.name) ∧
     (nm = none ∨ nm = some "" → (ensureStudent (some r) usn nm cg).name = r.name)) ∧
    ((∀ c, cg = some c → (ensureStudent (some r) usn nm cg).cgpa = some c) ∧
     (cg = none → (ensureStudent (some r) usn nm cg).cgpa = r.cgpa) ∧
     (r.cgpa ≠ none → (ensureStudent (some r) usn nm cg).cgpa ≠ none)) := by
  constructor
  · refine ⟨?_, ?_, ?_⟩
    · intro hne
      cases nm with
      | none => exact hne
      | some n =>
        show (if n ≠ "" ∧ (r.name = "" ∨ r.name = "Name Not Found") then n else r.name) ≠ ""
        by_cases h : n ≠ "" ∧ (r.name = "" ∨ r.name = "Name Not Found")
        · rw [if_pos h]
          exact h.1
        · rw [if_neg h]
          exact hne
    · intro h1 h2
      cases nm with
      | none => rfl
      | some n =>
        show (if n ≠ "" ∧ (r.name = "" ∨ r.name = "Name Not Found") then n else r.name) =
          r.name
        rw [if_neg]
        intro hcond
        rcases hcond.2 with hb | hb
        · exact h1 hb
        · exact h2 hb
    · intro h
      rcases h with h | h
      · subst h
        rfl
      · subst h
        show (if ("" : String) ≠ "" ∧ (r.name = "" ∨ r.name = "Name Not Found") then ""
          else r.name) = r.name
        rw [if_neg]
        intro hcond
        exact hcond.1 rfl
  · refine ⟨?_, ?_, ?_⟩
    · intro c hc
      subst hc
      rfl
    · intro hc
      subst hc
      rfl
    · intro hne
      cases cg with
      | none => exact hne
      | some c =>
        show (some c : Option Rat) ≠ none
        simp

/-- Witness for claim C5: a stored valid name survives a merge that brings
a different non-empty name, and a non-None incoming cgpa replaces the
stored one. -/
theorem scalar_fill_monotonic_wit :
    ("Jane Doe" : String) ≠ "" ∧ ("Jane Doe" : String) ≠ "Name Not Found" ∧
    (ensureStudent (some ⟨"1MS21AD001", "Jane Doe", some 9, []⟩) "1MS21AD001"
        (some "Other Name") (some 8)).name = "Jane Doe" ∧
    (ensureStudent (some ⟨"1MS21AD001", "Jane Doe", some 9, []⟩) "1MS21AD001"
        (some "Other Name") (some 8)).cgpa = some 8 :=
  ⟨by decide, by decide,
    (scalar_fill_monotonic ⟨"1MS21AD001", "Jane Doe", some 9, []⟩ "1MS21AD001"
      (some "Other Name") (some 8)).1.2.1 (by decide) (by decide),
    (scalar_fill_monotonic ⟨"1MS21AD001", "Jane Doe", some 9, []⟩ "1MS21AD001"
      (some "Other Name") (some 8)).2.1 8 rfl⟩

/-- Full characterization of the group enumeration loop: attempted numbers
are consecutive from the floor; the loop halts exactly when the trailing
counter first reaches the threshold and not before; if it never does, every
supplied outcome is attempted. -/
theorem groupRun_props (th : Nat) :
    ∀ (l : List GOutcome) (c start : Nat), c < th →
      (groupRun th c start l).1 = List.range' start (groupRun th c start l).1.length ∧
      (groupRun th c start l).1.length ≤ l.length ∧
      (∀ m, m < (groupRun th c start l).1.length → consecFold c (l.take m) < th) ∧
      ((groupRun th c start l).2 = none →
        consecFold c (l.take (groupRun th c start l).1.length) = th) ∧
      ((groupRun th c start l).1.length < l.length → (groupRun th c start l).2 = none) ∧
      ((groupRun th c start l).2 ≠ none → (groupRun th c start l).1.length = l.length) := by
  intro l
  induction l with
  | nil =>
    intro c start hc
    refine ⟨rfl, Nat.le_refl 0, ?_, ?_, ?_, ?_⟩
    · intro m hm
      exact absurd hm (Nat.not_lt_zero m)
    · intro hcontra
      cases hcontra
    · intro hlt
      exact absurd hlt (Nat.lt_irrefl 0)
    · intro _
      rfl
  | cons o rest ih =>
    intro c start hc
    cases o with
    | present =>
      obtain ⟨ihA, ihB, ihC, ihD, ihE, ihF⟩ :=
        ih 0 (start + 1) (Nat.lt_of_le_of_lt (Nat.zero_le c) hc)
      refine ⟨?_, ?_, ?_, ?_, ?_, ?_⟩
      · show start :: (groupRun th 0 (start + 1) rest).1 =
          List.range' start ((groupRun th 0 (start + 1) rest).1.length + 1)
        rw [show List.range' start ((groupRun th 0 (start + 1) rest).1.length + 1) =
          start :: List.range' (start + 1) (groupRun th 0 (start + 1) rest).1.length from rfl]
        exact congrArg (start :: ·) ihA
      · exact Nat.succ_le_succ ihB
      · intro m hm
        cases m with
        | zero => exact hc
        | succ k => exact ihC k (Nat.lt_of_succ_lt_succ hm)
      · intro hsnd
        exact ihD hsnd
      · intro hlt
        exact ihE (Nat.lt_of_succ_lt_succ hlt)
      · intro hsnd
        exact congrArg (· + 1) (ihF hsnd)
    | error =>
      obtain ⟨ihA, ihB, ihC, ihD, ihE, ihF⟩ := ih c (start + 1) hc
      refine ⟨?_, ?_, ?_, ?_, ?_, ?_⟩
      · show start :: (groupRun th c (start + 1) rest).1 =
          List.range' start ((groupRun th c (start + 1) rest).1.length + 1)
        rw [show List.range' start ((groupRun th c (start + 1) rest).1.length + 1) =
          start :: List.range' (start + 1) (groupRun th c (start + 1) rest).1.length from rfl]
        exact congrArg (start :: ·) ihA
      · exact Nat.succ_le_succ ihB
      · intro m hm
        cases m with
        | zero => exact hc
        | succ k => exact ihC k (Nat.lt_of_succ_lt_succ hm)
      · intro hsnd
        exact ihD hsnd
      · intro hlt
        exact ihE (Nat.lt_of_succ_lt_succ hlt)
      · intro hsnd
        exact congrArg (· + 1) (ihF hsnd)
    | absent =>
      by_cases hth : th ≤ c + 1
      · have hg : groupRun th c start (.absent :: rest) = ([start], none) := by
          simp [groupRun, hth]
        rw [hg]
        refine ⟨rfl, Nat.succ_le_succ (Nat.zero_le _), ?_, ?_, ?_, ?_⟩
        · intro m hm
          have : m = 0 := Nat.lt_one_iff.mp hm
          subst this
          exact hc
        · intro _
          show c + 1 = th
          omega
        · intro _
          rfl
        · intro hsnd
          exact absurd rfl hsnd
      · have hclt : c + 1 < th := Nat.lt_of_not_le hth
        have hg : groupRun th c start (.absent :: rest) =
            (start :: (groupRun th (c + 1) (start + 1) rest).1,
              (groupRun th (c + 1) (start + 1) rest).2) := by
          simp [groupRun, hth]
        obtain ⟨ihA, ihB, ihC, ihD, ihE, ihF⟩ := ih (c + 1) (start + 1) hclt
        rw [hg]
        refine ⟨?_, ?_, ?_, ?_, ?_, ?_⟩
        · show start :: (groupRun th (c + 1) (start + 1) rest).1 =
            List.range' start ((groupRun th (c + 1) (start + 1) rest).1.length + 1)
          rw [show List.range' start ((groupRun th (c + 1) (start + 1) rest).1.length + 1) =
            start :: List.range' (start + 1) (groupRun th (c + 1) (start + 1) rest).1.length
            from rfl]
          exact congrArg (start :: ·) ihA
        · exact Nat.succ_le_succ ihB
        · intro m hm
          cases m with
          | zero => exact hc
          | succ k => exact ihC k (Nat.lt_of_succ_lt_succ hm)
        · intro hsnd
          exact ihD hsnd
        · intro hlt
          exact ihE (Nat.lt_of_succ_lt_succ hlt)
        · intro hsnd
          exact congrArg (· + 1) (ihF hsnd)

/-- Claim C3 (confirmed): with a positive threshold and the counter below
it, the group loop attempts consecutive sequence numbers from the floor and
halts exactly when the trailing run of Absent outcomes first reaches the
threshold — never before (every attempted prefix keeps the counter below
the threshold), and never for another reason (halting early implies the
counter hit the threshold; otherwise every supplied outcome is attempted). -/
theorem group_stop_at_threshold (th c start : Nat) (l : List GOutcome) (hc : c < th) :
    (groupRun th c start l).1 = List.range' start (groupRun th c start l).1.length ∧
    (groupRun th c start l).1.length ≤ l.length ∧
    (∀ m, m < (groupRun th c start l).1.length → consecFold c (l.take m) < th) ∧
    ((groupRun th c start l).2 = none →
      consecFold c (l.take (groupRun th c start l).1.length) = th) ∧
    ((groupRun th c start l).1.length < l.length → (groupRun th c start l).2 = none) ∧
    ((groupRun th c start l).2 ≠ none → (groupRun th c start l).1.length = l.length) :=
  groupRun_props th l c start hc

/-- Witness for claim C3: the scenario from the specification — threshold
5, floor 1, outcomes `[Present, Absent, Absent, Absent, Absent, Absent,
Present]` — halts after sequence number 6; number 7 is never attempted. -/
theorem group_stop_at_threshold_wit :
    (0 : Nat) < 5 ∧
    (groupRun 5 0 1 scenarioOutcomes).1 = [1, 2, 3, 4, 5, 6] ∧
    (7 : Nat) ∉ (groupRun 5 0 1 scenarioOutcomes).1 ∧
    (groupRun 5 0 1 scenarioOutcomes).1.length ≤ scenarioOutcomes.length :=
  ⟨by decide, by decide, by decide,
    (group_stop_at_threshold 5 0 1 scenarioOutcomes (by decide)).2.1⟩

/-- Claim C9 (confirmed): an exception while processing one identifier does
not abort the group: the identifier is attempted and then abandoned, the
consecutive-OOPS counter is passed on unchanged (neither reset nor
incremented), enumeration advances to the next sequence number, an error
alone never halts the loop, and the halting decision over any outcome
stream equals the halting decision over the stream with the error outcomes
deleted. -/
theorem error_outcome_neutral :
    (∀ th c start rest, groupRun th c start (.error :: rest) =
      (start :: (groupRun th c (start + 1) rest).1, (groupRun th c (start + 1) rest).2)) ∧
    (∀ th c start, (groupRun th c start [.error]).2 = some c) ∧
    (∀ c (l : List GOutcome), consecFold c (.error :: l) = consecFold c l) ∧
    (∀ th (l : List GOutcome) c start start',
      (groupRun th c start l).2 =
        (groupRun th c start' (l.filter (fun o => !decide (o = .error)))).2) := by
  have hstart : ∀ th (l : List GOutcome) c s s',
      (groupRun th c s l).2 = (groupRun th c s' l).2 := by
    intro th l
    induction l with
    | nil => intro c s s'; rfl
    | cons o rest ih =>
      intro c s s'
      cases o with
      | present => exact ih 0 (s + 1) (s' + 1)
      | error => exact ih c (s + 1) (s' + 1)
      | absent =>
        by_cases hth : th ≤ c + 1
        · simp [groupRun, hth]
        · simpa [groupRun, hth] using ih (c + 1) (s + 1) (s' + 1)
  refine ⟨?_, ?_, ?_, ?_⟩
  · intro th c start rest
    rfl
  · intro th c start
    rfl
  · intro c l
    rfl
  intro th l
  induction l with
  | nil => intro c start start'; rfl
  | cons o rest ih =>
    intro c start start'
    cases o with
    | present =>
      show (groupRun th 0 (start + 1) rest).2 = _
      rw [show (GOutcome.present :: rest).filter (fun o => !decide (o = .error)) =
        .present :: rest.filter (fun o => !decide (o = .error)) from rfl]
      show _ = (groupRun th 0 (start' + 1) (rest.filter (fun o => !decide (o = .error)))).2
      exact ih 0 (start + 1) (start' + 1)
    | error =>
      show (groupRun th c (start + 1) rest).2 = _
      rw [show (GOutcome.error :: rest).filter (fun o => !decide (o = .error)) =
        rest.filter (fun o => !decide (o = .error)) from rfl]
      exact ih c (start + 1) start'
    | absent =>
      rw [show (GOutcome.absent :: rest).filter (fun o => !decide (o = .error)) =
        .absent :: rest.filter (fun o => !decide (o = .error)) from rfl]
      by_cases hth : th ≤ c + 1
      · simp [groupRun, hth]
      · simp only [groupRun, if_neg hth]
        exact ih (c + 1) (start + 1) (start' + 1)

theorem submitLoop_human_le (ph : Ind) : ∀ l, (submitLoop ph l).2.2 ≤ 1
  | [] => by simp [submitLoop]
  | [i] => by cases i <;> cases ph <;> simp [submitLoop]
  | i :: j :: rest => by
    cases i with
    | oops => simp [submitLoop]
    | cards => simp [submitLoop]
    | table => simp [submitLoop]
    | timeout =>
      have h := submitLoop_human_le ph (j :: rest)
      simpa [submitLoop] using h

theorem submitLoop_human_retries (ph : Ind) :
    ∀ l, (submitLoop ph l).2.2 = 1 → (submitLoop ph l).2.1 = l.length - 1
  | [] => by simp [submitLoop]
  | [i] => by cases i <;> cases ph <;> simp [submitLoop]
  | i :: j :: rest => by
    cases i with
    | oops => simp [submitLoop]
    | cards => simp [submitLoop]
    | table => simp [submitLoop]
    | timeout =>
      intro h
      have hh : (submitLoop ph (j :: rest)).2.2 = 1 := by
        simpa [submitLoop] using h
      have := submitLoop_human_retries ph (j :: rest) hh
      simp only [submitLoop, this]
      simp [List.length_cons]

theorem submitLoop_all_timeout :
    ∀ l, l ≠ [] → (∀ i ∈ l, i = Ind.timeout) →
      submitLoop .timeout l = (.notFound, l.length - 1, 1)
  | [], h, _ => absurd rfl h
  | [i], _, hall => by
    have : i = Ind.timeout := hall i (by simp)
    subst this
    simp [submitLoop]
  | i :: j :: rest, _, hall => by
    have hi : i = Ind.timeout := hall i (by simp)
    subst hi
    have hrec := submitLoop_all_timeout (j :: rest) (by simp)
      (fun x hx => hall x (List.mem_cons_of_mem _ hx))
    simp only [submitLoop, hrec]
    simp [List.length_cons]

/-- Claim C4 (confirmed): in the ambiguous/timeout retry loop, human input
is requested at most once; when it is requested, exactly `rb` automatic
re-submissions (`RETRY_ON_TIMEOUT` in the source) were performed first; and
when every classification, including the post-human long wait, stays
ambiguous, the identifier is reported as not found — a still-ambiguous
outcome is never classified as a scraped (present) result. -/
theorem ambiguous_escalation_order (rb : Nat) (inds : Nat → Ind) :
    (submitAndCollect rb inds).2.2 ≤ 1 ∧
    ((submitAndCollect rb inds).2.2 = 1 → (submitAndCollect rb inds).2.1 = rb) ∧
    ((∀ j, j ≤ rb → inds j = .timeout) → inds (rb + 1) = .timeout →
      submitAndCollect rb inds = (.notFound, rb, 1)) := by
  refine ⟨submitLoop_human_le _ _, ?_, ?_⟩
  · intro h
    have := submitLoop_human_retries _ _ h
    simpa using this
  · intro hall hpost
    have hlen : ((List.range (rb + 1)).map inds) ≠ [] := by simp
    have htime : ∀ i ∈ (List.range (rb + 1)).map inds, i = Ind.timeout := by
      intro i hi
      rcases List.mem_map.mp hi with ⟨j, hj, rfl⟩
      exact hall j (Nat.lt_succ_iff.mp (List.mem_range.mp hj))
    show submitLoop (inds (rb + 1)) ((List.range (rb + 1)).map inds) = _
    rw [hpost, submitLoop_all_timeout _ hlen htime]
    simp

/-- Witness for claim C4: an identifier whose page stays ambiguous at every
classification, with the source retry bound `RETRY_ON_TIMEOUT = 2`: two
automatic re-submissions, one human prompt, result downgraded to
not-found. -/
theorem ambiguous_escalation_order_wit :
    (∀ j, j ≤ RETRY_ON_TIMEOUT → (fun _ => Ind.timeout) j = Ind.timeout) ∧
    ((fun _ => Ind.timeout) (RETRY_ON_TIMEOUT + 1) = Ind.timeout) ∧
    submitAndCollect RETRY_ON_TIMEOUT (fun _ => Ind.timeout) =
      (.notFound, RETRY_ON_TIMEOUT, 1) :=
  ⟨fun _ _ => rfl, rfl,
    (ambiguous_escalation_order RETRY_ON_TIMEOUT (fun _ => Ind.timeout)).2.2
      (fun _ _ => rfl) rfl⟩

/-- Claim C8 (code bug): with three result units of which the second
yields the Absent signal, the extractor keeps the first unit's fragment
but never processes the third — the recovery from the absent unit lands
the session on the entry page, the next refetch finds no cards, and the
loop breaks — although the inline comment (line 301, skip back and
continue) and the spec say the unit is skipped and extraction continues
with the next unit; the identifier is still reported found from the units
already collected. -/
theorem absent_unit_aborts_rest :
    cardsLoop [.ok cardUnit1, .absent, .ok cardUnit3] =
      ([⟨some 1, none, [cAlgo]⟩], none) ∧
    cardsLoop [.ok cardUnit1, .ok cardUnit3] =
      ([⟨some 1, none, [cAlgo]⟩, ⟨some 3, none, [cOs]⟩], none) ∧
    cardsLoop [.ok cardUnit1, .absent, .ok cardUnit3] ≠
      cardsLoop [.ok cardUnit1, .ok cardUnit3] := by
  decide

theorem cardsLoop_nonempty : ∀ cs, ∀ s ∈ (cardsLoop cs).1, s.courses ≠ []
  | [] => by simp [cardsLoop]
  | .skip :: rest => cardsLoop_nonempty rest
  | .absent :: _ => by simp [cardsLoop]
  | .ok d :: rest => by
    intro s hs
    have hrec := cardsLoop_nonempty rest
    by_cases hde : d.courses = []
    · by_cases hb : d.backOk
      · simp only [cardsLoop, if_pos hde, if_pos hb, List.nil_append] at hs
        exact hrec s hs
      · simp only [cardsLoop, if_pos hde, if_neg hb, List.not_mem_nil] at hs
    · by_cases hb : d.backOk
      · simp only [cardsLoop, if_neg hde, if_pos hb, List.singleton_append,
          List.mem_cons] at hs
        rcases hs with h1 | h2
        · rw [h1]
          exact hde
        · exact hrec s h2
      · simp only [cardsLoop, if_neg hde, if_neg hb, List.mem_singleton] at hs
        rw [hs]
        exact hde

theorem mergeFold_nonempty (base : List Semester) :
    ∀ (f acc : List Semester),
      (∀ s ∈ acc, s.courses ≠ []) → (∀ s ∈ f, s.courses ≠ []) →
      ∀ s ∈ mergeFold base acc f, s.courses ≠ []
  | [], _, hacc, _ => hacc
  | g :: f, acc, hacc, hf => by
    apply mergeFold_nonempty base f
    · intro s hs
      cases h : semIndex base g.number with
      | none =>
        simp only [mergeFragStep, h] at hs
        rcases List.mem_append.mp hs with h1 | h2
        · exact hacc s h1
        · rw [List.mem_singleton.mp h2]
          exact hf g (List.mem_cons_self g f)
      | some i =>
        cases hai : acc[i]? with
        | none =>
          simp only [mergeFragStep, h, hai] at hs
          exact hacc s hs
        | some dest =>
          simp only [mergeFragStep, h, hai] at hs
          rcases List.mem_or_eq_of_mem_set hs with h1 | h2
          · exact hacc s h1
          · have hd := hacc dest (List.getElem?_mem hai)
            rw [h2]
            show dest.courses ++ _ ≠ []
            simp [hd]
    · intro s hsf
      exact hf s (List.mem_cons_of_mem g hsf)

/-- Claim C10 (confirmed): the extractor emits a semester fragment only
when at least one course row was parsed, so every fragment it returns has a
non-empty course list and `found_any` is true exactly when some fragment
was produced — a Present page from which no course rows can be extracted
contributes nothing and is reported as not found; and merging preserves
non-empty course lists, so every semester stored in the aggregate has a
non-empty course list. -/
theorem semesters_have_courses :
    (∀ p : PageState, ∀ s ∈ (scrapeView p).semesters, s.courses ≠ []) ∧
    (∀ p : PageState, (scrapeView p).found = true ↔ (scrapeView p).semesters ≠ []) ∧
    (∀ (r : StudentRecord) (f : List Semester),
      (∀ s ∈ r.semesters, s.courses ≠ []) → (∀ s ∈ f, s.courses ≠ []) →
      ∀ s ∈ (mergeSemesters r f).semesters, s.courses ≠ []) := by
  refine ⟨?_, ?_, ?_⟩
  · intro p s hs
    unfold scrapeView at hs
    by_cases ho : p.oops
    · rw [if_pos ho] at hs
      simp at hs
    · rw [if_neg ho] at hs
      by_cases hcards : p.cards ≠ []
      · rw [if_pos hcards] at hs
        exact cardsLoop_nonempty p.cards s hs
      · rw [if_neg hcards] at hs
        cases hd : p.direct with
        | none =>
          rw [hd] at hs
          simp at hs
        | some d =>
          rw [hd] at hs
          by_cases hde : d.courses = []
          · simp only [if_pos hde, List.not_mem_nil] at hs
          · simp only [if_neg hde, List.mem_singleton] at hs
            rw [hs]
            exact hde
  · intro p
    unfold scrapeView
    by_cases ho : p.oops
    · rw [if_pos ho]
      simp
    · rw [if_neg ho]
      by_cases hcards : p.cards ≠ []
      · rw [if_pos hcards]
        simp
      · rw [if_neg hcards]
        cases hd : p.direct with
        | none => simp
        | some d => simp
  · intro r f hr hf
    exact mergeFold_nonempty r.semesters f r.semesters hr hf

/-- Witness for claim C10: the merge-preservation component applied to a
concrete record and fragment list with non-empty course lists. -/
theorem semesters_have_courses_wit :
    (∀ s ∈ unknownRec.semesters, s.courses ≠ []) ∧
    (∀ s ∈ ([⟨some 2, none, [cOs]⟩] : List Semester), s.courses ≠ []) ∧
    (∀ s ∈ (mergeSemesters unknownRec [⟨some 2, none, [cOs]⟩]).semesters,
      s.courses ≠ []) :=
  ⟨by decide, by decide,
    semesters_have_courses.2.2 unknownRec [⟨some 2, none, [cOs]⟩] (by decide) (by decide)⟩

end Scrapexam
